import Mathlib

/-!
Verification of the vibe-check template resolution, fragment-merge, and
change-tracking engine against its specification.

The development shallowly embeds the Rust sources:

* text is modelled as `List Char`; Rust `str::replace` (replace all
  non-overlapping occurrences, scanning left to right) is `replaceAll`,
  `str::contains` is `occursIn`, `str::trim` is `trimChars` (ASCII
  whitespace), `Vec::join` is `joinSep`;
* the filesystem is modelled as an association list from canonical absolute
  path strings to file contents, so `fs::canonicalize` (and the three-tier
  fallback of `FileTracker::resolve_absolute_path`) collapses to the
  identity on path strings;
* SHA-256 is modelled by an explicit digest-function parameter `hash`:
  every statement holds for an arbitrary digest function;
* fragments are passed as (content, category) pairs: the Rust code reads
  the fragment file at a path, the model receives the content the read
  would have produced;
* the iteration order of Rust `HashMap` is unspecified, so the per-category
  merge loop is modelled by `processCategories` applied to an explicit
  enumeration `order` of the grouped map; `buildGroups` computes the
  deterministic contents of that map (first-insertion order), and any real
  run corresponds to some permutation of it.
-/

/-- The template marker comment (`TEMPLATE_MARKER` in `template_engine.rs`). -/
def markerStr : String :=
  "<!-- VIBE-CHECK-TEMPLATE: This marker indicates an unmerged template. Do not remove manually. -->"

/-- The marker as a character list. -/
def markerData : List Char := markerStr.data

/-- The marker followed by a newline (`marker_with_newline` in `merge_fragments`). -/
def markerLine : List Char := markerData ++ [Char.ofNat 10]

/-- Model of Rust `str::contains`: does `n` occur as a contiguous substring? -/
def occursIn (n : List Char) : List Char → Bool
  | [] => n.isEmpty
  | c :: t => n.isPrefixOf (c :: t) || occursIn n t

/-- Fuel-indexed worker for `replaceAll`; the fuel is the length of the text,
which suffices because a non-empty needle consumes at least one character. -/
def replaceAllAux (n rep : List Char) : Nat → List Char → List Char
  | 0, s => s
  | _ + 1, [] => []
  | fuel + 1, c :: t =>
    if n ≠ [] ∧ n.isPrefixOf (c :: t)
    then rep ++ replaceAllAux n rep fuel (t.drop (n.length - 1))
    else c :: replaceAllAux n rep fuel t

/-- Model of Rust `str::replace`: replace every non-overlapping occurrence of
`n` by `rep`, scanning left to right. -/
def replaceAll (n rep s : List Char) : List Char :=
  replaceAllAux n rep s.length s

/-- Model of Rust `str::trim` (ASCII whitespace). -/
def trimChars (s : List Char) : List Char :=
  ((s.dropWhile Char.isWhitespace).reverse.dropWhile Char.isWhitespace).reverse

/-- Model of Rust `Vec::join(sep)` on a list of text fragments. -/
def joinSep (sep : List Char) : List (List Char) → List Char
  | [] => []
  | [x] => x
  | x :: y :: t => x ++ sep ++ joinSep sep (y :: t)

/-- The `"\n\n"` separator used between merged fragment bodies. -/
def nlnl : List Char := [Char.ofNat 10, Char.ofNat 10]

/-- `combined_content` of `merge_fragments`: trim each fragment body and join
with a blank line. -/
def combinedContents (contents : List (List Char)) : List Char :=
  joinSep nlnl (contents.map trimChars)

/-- The insertion-point token for a category (`format!("<!-- {{{}}} -->", category)`). -/
def insertionPoint (c : List Char) : List Char :=
  '<' :: '!' :: '-' :: '-' :: ' ' :: '\x7b' :: (c ++ ['\x7d', ' ', '-', '-', '>'])

/-- The `"languages"` category name. -/
def langCatL : List Char := ("languages").data

/-- The `"mission"` category name. -/
def missionCatL : List Char := ("mission").data

/-- The `"## Mission Statement\n\n"` header prepended to a custom mission. -/
def missionHeader : List Char := ("## Mission Statement\n\n").data

/-- `fragments_by_category` entry update: push `content` onto the entry for
`cat`, appending a fresh entry when the category is new (`HashMap::entry(..).or_default().push(..)`;
the association list records the map's contents in first-insertion order). -/
def addFragment : List (List Char × List (List Char)) → List Char → List Char →
    List (List Char × List (List Char))
  | [], cat, content => [(cat, [content])]
  | (k, vs) :: rest, cat, content =>
    if k = cat then (k, vs ++ [content]) :: rest
    else (k, vs) :: addFragment rest cat content

/-- The grouped fragment map built by `merge_fragments` (`template_engine.rs`):
an empty `languages` entry when `no_lang` is set, then every fragment pushed
under its category, then the formatted custom mission if supplied. -/
def buildGroups (no_lang : Bool) (fragments : List (List Char × List Char))
    (mission : Option (List Char)) : List (List Char × List (List Char)) :=
  let g0 := if no_lang then [(langCatL, ([] : List (List Char)))] else []
  let g1 := fragments.foldl (fun g fc => addFragment g fc.2 fc.1) g0
  match mission with
  | none => g1
  | some m => addFragment g1 missionCatL (missionHeader ++ trimChars m)

/-- One iteration of the per-category loop of `merge_fragments`: if the
insertion-point token occurs in the document, replace it by itself followed by
a blank line and the combined fragment bodies; otherwise warn and continue. -/
def categoryStep (doc : List Char) (g : List Char × List (List Char)) : List Char :=
  let tok := insertionPoint g.1
  if occursIn tok doc then replaceAll tok (tok ++ nlnl ++ combinedContents g.2) doc else doc

/-- The per-category loop of `merge_fragments`, processing the grouped map in
the enumeration order `groups`. -/
def processCategories (doc : List Char) (groups : List (List Char × List (List Char))) : List Char :=
  groups.foldl categoryStep doc

/-- The marker-stripping step of `merge_fragments`:
`main_content.replace(&marker_with_newline, "")`. -/
def stripMarker (doc : List Char) : List Char :=
  replaceAll markerLine [] doc

/-- `merge_fragments` with an explicit enumeration order of the grouped
category map (the Rust `HashMap` iteration order is unspecified). -/
def mergeFragmentsOrd (src : List Char) (order : List (List Char × List (List Char))) : List Char :=
  processCategories (stripMarker src) order

/-- `TemplateEngine::merge_fragments` (`template_engine.rs`), producing the
merged document text; the grouped map is processed in its first-insertion
order (other orders are handled through `mergeFragmentsOrd`). The v2 struct
engine's `merge_fragments` is the same function with `no_lang := false`. -/
def merge_fragments (src : List Char) (fragments : List (List Char × List Char))
    (no_lang : Bool) (mission : Option (List Char)) : List Char :=
  mergeFragmentsOrd src (buildGroups no_lang fragments mission)

/-- `TemplateEngine::handle_main_template` on the non-skipped path: merge when
there are fragments or a custom mission, otherwise copy the main source
verbatim. Returns the content written to the target. -/
def handle_main_template (src : List Char) (fragments : List (List Char × List Char))
    (no_lang : Bool) (mission : Option (List Char)) : List Char :=
  if fragments ≠ [] ∨ mission.isSome then merge_fragments src fragments no_lang mission else src

/-- The `"$workspace"` placeholder. -/
def wsPh : List Char := ("$workspace").data

/-- The `"$userprofile"` placeholder. -/
def upPh : List Char := ("$userprofile").data

/-- `trim_start_matches('/').trim_start_matches('\\')` applied to the
placeholder remainder. -/
def trimSeparators (s : List Char) : List Char :=
  (s.dropWhile (fun c => c = '/')).dropWhile (fun c => c = '\\')

/-- Model of `Path::join` with a relative right operand (POSIX separators);
joining the empty suffix is the base path (`PathBuf` equality ignores a
trailing separator). -/
def pathJoin (base suffix : List Char) : List Char :=
  if suffix = [] then base else base ++ '/' :: suffix

/-- `TemplateEngine::resolve_placeholder` (the shared trait default in
`template_engine.rs`): prefix match on the two placeholders, separator
trimming, `Path::join`; any other pattern is returned verbatim. -/
def resolve_placeholder (path workspace userprofile : List Char) : List Char :=
  if wsPh.isPrefixOf path then pathJoin workspace (trimSeparators (path.drop wsPh.length))
  else if upPh.isPrefixOf path then pathJoin userprofile (trimSeparators (path.drop upPh.length))
  else path

/-- `TemplateEngineV2::resolve_placeholder` (identical in
`TemplateEngineV1`): global textual substitution of `$workspace` and then
`$userprofile` anywhere in the pattern. -/
def resolve_placeholder_v2 (path workspace userprofile : List Char) : List Char :=
  replaceAll upPh userprofile (replaceAll wsPh workspace path)

/-- `FileMetadata` of `file_tracker.rs`. -/
structure FileMetadata where
  original_sha : String
  template_version : Nat
  installed_date : String
  lang : Option String
  category : String
deriving DecidableEq

/-- The filesystem: an association list from canonical absolute path strings
to file contents (first binding wins). -/
abbrev FS := List (String × String)

/-- The in-memory ledger map of `FileTracker` (keyed by absolute path string,
first binding wins, mirroring `HashMap::insert` overwrite semantics). -/
abbrev Ledger := List (String × FileMetadata)

/-- `FileTracker::resolve_absolute_path`: on the canonical-path filesystem
model, canonicalization (and both its fallbacks) is the identity. -/
def resolve_absolute_path (p : String) : String := p

/-- Read a file (`fs::read_to_string` / existence via `Path::exists`). -/
def read_file (fs : FS) (p : String) : Option String := List.lookup p fs

/-- `Path::exists` on the model filesystem. -/
def file_exists (fs : FS) (p : String) : Bool := (read_file fs p).isSome

/-- Write a file, overwriting any previous content. -/
def write_file (fs : FS) (p c : String) : FS := (p, c) :: fs

/-- Delete a file. -/
def delete_file (fs : FS) (p : String) : FS := fs.filter (fun e => e.1 != p)

/-- `FileTracker::calculate_sha256`, with the digest function `hash` as an
explicit parameter; `none` when the file cannot be read. -/
def calculate_sha256 (hash : String → String) (fs : FS) (p : String) : Option String :=
  (read_file fs p).map hash

/-- `FileStatus` of `file_tracker.rs`. -/
inductive FileStatus
  | NotTracked
  | Unmodified
  | Modified
  | Deleted
deriving DecidableEq

/-- `FileTracker::record_installation`: insert/overwrite the entry keyed by
the resolved absolute path (`now` is the RFC-3339 timestamp). -/
def record_installation (ledger : Ledger) (p sha : String) (version : Nat) (now : String)
    (lang : Option String) (category : String) : Ledger :=
  (resolve_absolute_path p, ⟨sha, version, now, lang, category⟩) :: ledger

/-- `FileTracker::get_metadata`. -/
def get_metadata (ledger : Ledger) (p : String) : Option FileMetadata :=
  List.lookup (resolve_absolute_path p) ledger

/-- `FileTracker::check_modification`: `NotTracked` when there is no entry for
the resolved absolute path; `Deleted` when the entry exists but the path no
longer exists on disk; otherwise recompute the content hash and compare with
the stored one. -/
def check_modification (hash : String → String) (ledger : Ledger) (fs : FS) (p : String) :
    FileStatus :=
  match get_metadata ledger p with
  | none => .NotTracked
  | some meta =>
    match read_file fs p with
    | none => .Deleted
    | some content =>
      if hash content = meta.original_sha then .Unmodified else .Modified

/-- `FileTracker::new`: `diskFile` is the content of `installed_files.json`
when present; `parse` models `serde_json::from_str` (`none` on parse failure).
A parse failure yields the empty map (`unwrap_or_else`); the constructor does
not fail. -/
def fileTracker_new (parse : String → Option Ledger) (diskFile : Option String) :
    Except String Ledger :=
  match diskFile with
  | none => .ok []
  | some contents => .ok ((parse contents).getD [])

/-- The write decision for one direct-copy file. -/
inductive CopyChoice
  | write
  | promptUser
deriving DecidableEq

/-- The per-file write decision of `copy_files_with_tracking`
(`template_engine.rs`): write when the target is missing or force is set;
otherwise dispatch on the ledger status, prompting for `NotTracked` and for
`Modified`-with-metadata, writing for `Unmodified` and `Deleted` (and for the
unreachable `Modified`-without-metadata arm). -/
def copy_files_decision (hash : String → String) (ledger : Ledger) (fs : FS) (force : Bool)
    (target : String) : CopyChoice :=
  if file_exists fs target = false then .write
  else if force then .write
  else
    match check_modification hash ledger fs target with
    | .NotTracked => .promptUser
    | .Unmodified => .write
    | .Modified =>
      match get_metadata ledger target with
      | some _ => .promptUser
      | none => .write
    | .Deleted => .write

/-- `FileActionResponse` of `utils.rs` (the diff option re-prompts and never
returns, so a returned response is one of these three). -/
inductive FileActionResponse
  | Skip
  | Overwrite
  | Quit
deriving DecidableEq

/-- State threaded through the direct-copy loop: the filesystem, the
in-memory tracker, and the index of the next interactive response. -/
structure CopyState where
  fs : FS
  tracker : Ledger
  promptIdx : Nat
deriving DecidableEq

/-- Result of the direct-copy loop. -/
inductive CopyOutcome
  | Done (skipped : List String)
  | Cancelled
deriving DecidableEq

/-- Rust `str::contains` on `String`. -/
def strContains (h : String) (n : String) : Bool := occursIn n.data h.data

/-- The category classifier of the v2 direct-copy loop
(`template_engine_v2.rs`): `integration` for `.git` targets, `agent` when the
selected agent's name occurs in the target path, else `language`. -/
def categoryOf_v2 (agent : Option String) (target : String) : String :=
  if strContains target (".git") then ("integration")
  else
    match agent with
    | some name =>
      if strContains target ((".") ++ name) || strContains target name
      then ("agent") else ("language")
    | none => ("language")

/-- Internal action selected for one file of the copy loop. -/
inductive StepAct
  | copyIt (nextIdx : Nat)
  | skipIt (nextIdx : Nat)
  | quitIt (nextIdx : Nat)
deriving DecidableEq

/-- The direct-copy loop of `TemplateEngineV2::update` (lines 346-461):
per file, compute the template digest, decide via target existence, force and
ledger status, prompting where required (`responses` models the stream of
interactive answers), write and record on copy, collect skipped files, and
return `Cancelled` on a quit response. -/
def copy_files_v2 (hash : String → String) (responses : Nat → FileActionResponse) (now : String)
    (version : Nat) (lang : String) (agent : Option String) (force : Bool) :
    List (String × String) → CopyState → List String → Except String (CopyState × CopyOutcome)
  | [], st, skipped => .ok (st, .Done skipped)
  | (source, target) :: rest, st, skipped =>
    match read_file st.fs source with
    | none => .error ("failed to read source template")
    | some srcContent =>
      let newSha := hash srcContent
      let act : StepAct :=
        if file_exists st.fs target = false then .copyIt st.promptIdx
        else if force then .copyIt st.promptIdx
        else
          match check_modification hash st.tracker st.fs target with
          | .NotTracked =>
            match responses st.promptIdx with
            | .Overwrite => .copyIt (st.promptIdx + 1)
            | .Skip => .skipIt (st.promptIdx + 1)
            | .Quit => .quitIt (st.promptIdx + 1)
          | .Unmodified => .copyIt st.promptIdx
          | .Modified =>
            match get_metadata st.tracker target with
            | some _ =>
              match responses st.promptIdx with
              | .Overwrite => .copyIt (st.promptIdx + 1)
              | .Skip => .skipIt (st.promptIdx + 1)
              | .Quit => .quitIt (st.promptIdx + 1)
            | none => .copyIt st.promptIdx
          | .Deleted => .copyIt st.promptIdx
      match act with
      | .quitIt i => .ok ({ st with promptIdx := i }, .Cancelled)
      | .skipIt i =>
        copy_files_v2 hash responses now version lang agent force rest
          { st with promptIdx := i } (skipped ++ [target])
      | .copyIt i =>
        copy_files_v2 hash responses now version lang agent force rest
          { fs := write_file st.fs target srcContent,
            tracker := record_installation st.tracker target newSha version now
              (some lang) (categoryOf_v2 agent target),
            promptIdx := i }
          skipped

/-- Result of an update run: the final filesystem, the ledger file persisted
on disk after the run, and whether the run was cancelled by a quit response. -/
structure UpdateResult where
  fs : FS
  diskLedger : Ledger
  cancelled : Bool
deriving DecidableEq

/-- The tail of `TemplateEngineV2::update` from the direct-copy loop onward:
the in-memory tracker starts from the persisted ledger `disk`; after a
completed loop `file_tracker.save()` persists the tracker, while a quit
response returns `Ok(())` early, leaving the persisted ledger untouched. -/
def update_v2_copy_phase (hash : String → String) (responses : Nat → FileActionResponse)
    (now : String) (version : Nat) (lang : String) (agent : Option String) (force : Bool)
    (files : List (String × String)) (fs0 : FS) (disk : Ledger) : Except String UpdateResult :=
  match copy_files_v2 hash responses now version lang agent force files
      { fs := fs0, tracker := disk, promptIdx := 0 } [] with
  | .error e => .error e
  | .ok (st, .Cancelled) => .ok { fs := st.fs, diskLedger := disk, cancelled := true }
  | .ok (st, .Done _) => .ok { fs := st.fs, diskLedger := st.tracker, cancelled := false }

/-- `FileMapping` of `bom.rs`. -/
structure FileMapping where
  source : String
  target : String
deriving DecidableEq

/-- `AgentConfig` of `bom.rs` (instructions and prompts; the parsed manifest
has no skill entries). -/
structure AgentConfig where
  instructions : Option (List FileMapping)
  prompts : Option (List FileMapping)
deriving DecidableEq

/-- `BillOfMaterials::resolve_workspace_path`: `none` for targets referencing
`$userprofile` or `$instructions`; `$workspace` is replaced by `.`; anything
else is workspace-relative as given. -/
def resolve_workspace_path (target : String) : Option String :=
  if strContains target ("$userprofile") then none
  else if strContains target ("$instructions") then none
  else if strContains target ("$workspace") then
    some (String.mk (replaceAll wsPh ((".").data) target.data))
  else some target

/-- The qualifying resolved paths of one agent (instructions then prompts),
as collected by `BillOfMaterials::from_config`. -/
def agent_paths (cfg : AgentConfig) : List String :=
  ((cfg.instructions.getD []).filterMap (fun m => resolve_workspace_path m.target)) ++
    ((cfg.prompts.getD []).filterMap (fun m => resolve_workspace_path m.target))

/-- `BillOfMaterials::from_config` on the parsed agents map (given as an
association list in some enumeration order): each agent's qualifying paths
are collected, and the agent is inserted only when that list is non-empty. -/
def bom_from_config : List (String × AgentConfig) → List (String × List String)
  | [] => []
  | (name, cfg) :: rest =>
    let paths := agent_paths cfg
    if paths.isEmpty then bom_from_config rest else (name, paths) :: bom_from_config rest

/-- Render a document from alternating insertion-point tokens and following
text segments (the normal form used to reason about the category loop). -/
def renderTail : List (List Char × List Char) → List Char
  | [] => []
  | (c, s) :: t => insertionPoint c ++ s ++ renderTail t

/-- Prepend `ins` to the segment following every token of category `c`. -/
def updIns (c ins : List Char) (l : List (List Char × List Char)) :
    List (List Char × List Char) :=
  l.map (fun e => if e.1 = c then (e.1, ins ++ e.2) else e)

/-- The effect of one category step on the token/segment representation. -/
def applyGroup (l : List (List Char × List Char)) (g : List Char × List (List Char)) :
    List (List Char × List Char) :=
  updIns g.1 (nlnl ++ combinedContents g.2) l

/-- A well-formed category name: free of `<` and `}` (so distinct insertion
point tokens cannot overlap). -/
def goodCat (c : List Char) : Prop := '<' ∉ c ∧ '\x7d' ∉ c

/-- All text segments of a representation are free of `<`. -/
def segsOk (l : List (List Char × List Char)) : Prop := ∀ e ∈ l, '<' ∉ e.2

/-- All category names of a representation are well formed. -/
def catsOk (l : List (List Char × List Char)) : Prop := ∀ e ∈ l, goodCat e.1

instance (c : List Char) : Decidable (goodCat c) :=
  inferInstanceAs (Decidable ('<' ∉ c ∧ '\x7d' ∉ c))

instance (l : List (List Char × List Char)) : Decidable (segsOk l) :=
  inferInstanceAs (Decidable (∀ e ∈ l, '<' ∉ e.2))

instance (l : List (List Char × List Char)) : Decidable (catsOk l) :=
  inferInstanceAs (Decidable (∀ e ∈ l, goodCat e.1))

/-- The text the category loop inserts after one insertion-point token of
category `c` when run on the grouped map `G`: the blank-line separator plus
the combined trimmed bodies when `c` has a group in `G` (the separator alone
when that group is empty), and nothing when `c` has no group. -/
def groupIns (G : List (List Char × List (List Char))) (c : List Char) : List Char :=
  match List.lookup c G with
  | some cs => nlnl ++ combinedContents cs
  | none => []

/-! ### General lemmas about the text primitives -/

theorem isPrefixOf_cons_cons (a b : Char) (x y : List Char) :
    (a :: x).isPrefixOf (b :: y) = (a == b && x.isPrefixOf y) := rfl

theorem isPrefixOf_append_self (n y : List Char) : n.isPrefixOf (n ++ y) = true := by
  induction n with
  | nil => simp [List.isPrefixOf]
  | cons a t ih => simp [List.isPrefixOf, ih]

theorem isPrefixOf_append_both (x a b : List Char) :
    (x ++ a).isPrefixOf (x ++ b) = a.isPrefixOf b := by
  induction x with
  | nil => rfl
  | cons c t ih => simp [List.isPrefixOf, ih]

theorem pre_head_ne {a b : Char} {x y : List Char} (h : b ≠ a) :
    (a :: x).isPrefixOf (b :: y) = false := by
  rw [isPrefixOf_cons_cons]
  have hab : (a == b) = false := beq_eq_false_iff_ne.mpr (fun hh => h hh.symm)
  simp [hab]

theorem pre_false_of_head_not_mem {hd : Char} {n0 s : List Char} (h : hd ∉ s) :
    (hd :: n0).isPrefixOf s = false := by
  cases s with
  | nil => rfl
  | cons c t =>
    have : c ≠ hd := fun hc => h (hc ▸ List.mem_cons_self c t)
    exact pre_head_ne this

theorem replaceAllAux_congr (n rep : List Char) :
    ∀ fuel1 fuel2 s, s.length ≤ fuel1 → s.length ≤ fuel2 →
      replaceAllAux n rep fuel1 s = replaceAllAux n rep fuel2 s := by
  intro fuel1
  induction fuel1 with
  | zero =>
    intro fuel2 s hs1 _
    have hs : s = [] := List.eq_nil_of_length_eq_zero (Nat.le_zero.mp hs1)
    subst hs
    cases fuel2 <;> rfl
  | succ f ih =>
    intro fuel2 s hs1 hs2
    cases s with
    | nil => cases fuel2 <;> rfl
    | cons c t =>
      cases fuel2 with
      | zero => simp at hs2
      | succ f2 =>
        simp only [replaceAllAux]
        by_cases h : n ≠ [] ∧ n.isPrefixOf (c :: t)
        · rw [if_pos h, if_pos h]
          have hlen : (t.drop (n.length - 1)).length ≤ t.length := by
            simp [List.length_drop]
          have ht1 : t.length ≤ f := Nat.lt_succ_iff.mp (Nat.lt_of_lt_of_le (Nat.lt_succ_self _) hs1)
          have ht2 : t.length ≤ f2 := Nat.lt_succ_iff.mp (Nat.lt_of_lt_of_le (Nat.lt_succ_self _) hs2)
          rw [ih f2 _ (le_trans hlen ht1) (le_trans hlen ht2)]
        · rw [if_neg h, if_neg h]
          have ht1 : t.length ≤ f := Nat.lt_succ_iff.mp (Nat.lt_of_lt_of_le (Nat.lt_succ_self _) hs1)
          have ht2 : t.length ≤ f2 := Nat.lt_succ_iff.mp (Nat.lt_of_lt_of_le (Nat.lt_succ_self _) hs2)
          rw [ih f2 t ht1 ht2]

theorem replaceAll_cons_eq (n rep : List Char) (c : Char) (t : List Char) :
    replaceAll n rep (c :: t) =
      if n ≠ [] ∧ n.isPrefixOf (c :: t)
      then rep ++ replaceAll n rep (t.drop (n.length - 1))
      else c :: replaceAll n rep t := by
  show replaceAllAux n rep (c :: t).length (c :: t) = _
  simp only [List.length_cons, replaceAllAux]
  by_cases h : n ≠ [] ∧ n.isPrefixOf (c :: t)
  · rw [if_pos h, if_pos h]
    have hlen : (t.drop (n.length - 1)).length ≤ t.length := by simp [List.length_drop]
    rw [replaceAllAux_congr n rep t.length (t.drop (n.length - 1)).length _ hlen (le_refl _)]
    rfl
  · rw [if_neg h, if_neg h]
    rfl

theorem replaceAll_nil (n rep : List Char) : replaceAll n rep [] = [] := rfl

theorem replaceAll_cons_nomatch {n : List Char} (rep : List Char) {c : Char} {t : List Char}
    (h : n.isPrefixOf (c :: t) = false) :
    replaceAll n rep (c :: t) = c :: replaceAll n rep t := by
  rw [replaceAll_cons_eq, if_neg]
  rintro ⟨-, h2⟩
  rw [h] at h2
  exact Bool.false_ne_true h2

theorem replaceAll_head_match {n : List Char} (rep y : List Char) (hn : n ≠ []) :
    replaceAll n rep (n ++ y) = rep ++ replaceAll n rep y := by
  cases n with
  | nil => exact absurd rfl hn
  | cons a n0 =>
    rw [List.cons_append, replaceAll_cons_eq, if_pos]
    · congr 1
      have : (a :: n0).length - 1 = n0.length := by simp
      rw [this, List.drop_left]
    · exact ⟨hn, by rw [← List.cons_append]; exact isPrefixOf_append_self _ _⟩

theorem replaceAll_skip {hd : Char} {n0 : List Char} (rep : List Char) :
    ∀ x y, hd ∉ x → replaceAll (hd :: n0) rep (x ++ y) = x ++ replaceAll (hd :: n0) rep y := by
  intro x
  induction x with
  | nil => intro y _; rfl
  | cons c t ih =>
    intro y hx
    have hc : c ≠ hd := fun h => hx (h ▸ List.mem_cons_self c t)
    have ht : hd ∉ t := fun h => hx (List.mem_cons_of_mem c h)
    rw [List.cons_append, replaceAll_cons_nomatch rep (pre_head_ne hc), ih y ht, List.cons_append]

theorem replaceAll_no_head {hd : Char} {n0 : List Char} (rep : List Char) {s : List Char}
    (h : hd ∉ s) : replaceAll (hd :: n0) rep s = s := by
  have h2 : replaceAll (hd :: n0) rep (s ++ []) = s ++ replaceAll (hd :: n0) rep [] :=
    replaceAll_skip rep s [] h
  simpa [replaceAll_nil] using h2

theorem occursIn_cons (n : List Char) (c : Char) (t : List Char) :
    occursIn n (c :: t) = (n.isPrefixOf (c :: t) || occursIn n t) := rfl

theorem occursIn_head_match {hd : Char} {n0 : List Char} (y : List Char) :
    occursIn (hd :: n0) ((hd :: n0) ++ y) = true := by
  rw [List.cons_append, occursIn_cons, ← List.cons_append, isPrefixOf_append_self]
  rfl

theorem occursIn_skip {hd : Char} {n0 : List Char} :
    ∀ x y, hd ∉ x → occursIn (hd :: n0) (x ++ y) = occursIn (hd :: n0) y := by
  intro x
  induction x with
  | nil => intro y _; rfl
  | cons c t ih =>
    intro y hx
    have hc : c ≠ hd := fun h => hx (h ▸ List.mem_cons_self c t)
    have ht : hd ∉ t := fun h => hx (List.mem_cons_of_mem c h)
    rw [List.cons_append, occursIn_cons, pre_head_ne hc, ih y ht, Bool.false_or]

theorem occursIn_nil (hd : Char) (n0 : List Char) : occursIn (hd :: n0) [] = false := rfl

theorem occursIn_no_head {hd : Char} {n0 : List Char} {s : List Char} (h : hd ∉ s) :
    occursIn (hd :: n0) s = false := by
  have h2 : occursIn (hd :: n0) (s ++ []) = occursIn (hd :: n0) [] :=
    occursIn_skip s [] h
  simpa [occursIn_nil] using h2

theorem pre_false_of_take_ne {n s : List Char} {k : Nat} (hk : k ≤ n.length)
    (h : n.take k ≠ s.take k) : n.isPrefixOf s = false := by
  cases hb : n.isPrefixOf s
  · rfl
  · obtain ⟨t, ht⟩ := List.isPrefixOf_iff_prefix.mp hb
    exact absurd (by rw [← ht, List.take_append_of_le_length hk]) h

theorem wsPh_cons : wsPh = '$' :: wsPh.tail := by decide

theorem upPh_cons : upPh = '$' :: upPh.tail := by decide

theorem resolve_placeholder_cases : ∀ path workspace userprofile : List Char,
    (∀ rest, path = wsPh ++ rest →
      resolve_placeholder path workspace userprofile
        = pathJoin workspace (trimSeparators rest)) ∧
    (∀ rest, path = upPh ++ rest →
      resolve_placeholder path workspace userprofile
        = pathJoin userprofile (trimSeparators rest)) ∧
    ((¬ ∃ rest, path = wsPh ++ rest) → (¬ ∃ rest, path = upPh ++ rest) →
      resolve_placeholder path workspace userprofile = path) := by
  intro path ws up
  refine ⟨?_, ?_, ?_⟩
  · intro rest hr
    subst hr
    simp [resolve_placeholder, isPrefixOf_append_self, List.drop_left]
  · intro rest hr
    subst hr
    have h1 : wsPh.isPrefixOf (upPh ++ rest) = false := by
      apply pre_false_of_take_ne (k := 2) (by decide)
      have h2 : (upPh ++ rest).take 2 = upPh.take 2 :=
        List.take_append_of_le_length (by decide)
      rw [h2]
      decide
    simp [resolve_placeholder, h1, isPrefixOf_append_self, List.drop_left]
  · intro h1 h2
    have hw : wsPh.isPrefixOf path = false := by
      cases hb : wsPh.isPrefixOf path
      · rfl
      · obtain ⟨t, ht⟩ := List.isPrefixOf_iff_prefix.mp hb
        exact absurd ⟨t, ht.symm⟩ h1
    have hu : upPh.isPrefixOf path = false := by
      cases hb : upPh.isPrefixOf path
      · rfl
      · obtain ⟨t, ht⟩ := List.isPrefixOf_iff_prefix.mp hb
        exact absurd ⟨t, ht.symm⟩ h2
    simp [resolve_placeholder, hw, hu]

/-- C4: the placeholder resolver is a total function recognizing exactly the
two placeholders as prefixes: a `$workspace`-led pattern joins the workspace
root with the separator-normalized remainder, a `$userprofile`-led pattern
joins the user-profile root likewise, and every other pattern (including one
with an unrecognized placeholder) is returned verbatim; being a total Lean
function, it never fails. -/
theorem C4_resolve_placeholder_total : ∀ path workspace userprofile : List Char,
    (∀ rest, path = wsPh ++ rest →
      resolve_placeholder path workspace userprofile
        = pathJoin workspace (trimSeparators rest)) ∧
    (∀ rest, path = upPh ++ rest →
      resolve_placeholder path workspace userprofile
        = pathJoin userprofile (trimSeparators rest)) ∧
    ((¬ ∃ rest, path = wsPh ++ rest) → (¬ ∃ rest, path = upPh ++ rest) →
      resolve_placeholder path workspace userprofile = path) :=
  resolve_placeholder_cases

/-- Witness for C4 at concrete inputs: a `$workspace` pattern and a pattern
with the unrecognized `$instructions` placeholder. -/
theorem C4_resolve_placeholder_total_witness :
    resolve_placeholder (wsPh ++ '/' :: 'a' :: []) (("/w").data) (("/u").data)
      = pathJoin (("/w").data) (trimSeparators ('/' :: 'a' :: [])) ∧
    resolve_placeholder (("$instructions").data) (("/w").data) (("/u").data)
      = ("$instructions").data := by
  constructor
  · exact (C4_resolve_placeholder_total (wsPh ++ '/' :: 'a' :: []) (("/w").data) (("/u").data)).1
      ('/' :: 'a' :: []) rfl
  · refine (C4_resolve_placeholder_total (("$instructions").data) (("/w").data)
      (("/u").data)).2.2 ?_ ?_
    · rintro ⟨r, hr⟩
      have h2 := congrArg (List.take 2) hr
      rw [show (wsPh ++ r).take 2 = wsPh.take 2 from
        List.take_append_of_le_length (by decide)] at h2
      exact absurd h2 (by decide)
    · rintro ⟨r, hr⟩
      have h2 := congrArg (List.take 2) hr
      rw [show (upPh ++ r).take 2 = upPh.take 2 from
        List.take_append_of_le_length (by decide)] at h2
      exact absurd h2 (by decide)

/-- C9 counterexample: on the pattern `a$workspace` (placeholder not at the
start) the shared trait resolver returns the pattern verbatim while the
v1/v2 struct resolvers substitute the workspace root, so the two resolvers do
not compute the same path for every pattern. -/
theorem C9_resolvers_counterexample :
    resolve_placeholder (("a$workspace").data) (("/w").data) (("/u").data) ≠
      resolve_placeholder_v2 (("a$workspace").data) (("/w").data) (("/u").data) := by
  decide

/-- C9 amended: the two resolvers agree on every pattern in which a
placeholder occurs only as the leading token followed by a separator and a
remainder that neither is empty, nor starts with a separator, nor contains
`$`, provided the two roots contain no `$`; they also agree on every pattern
containing no `$` at all. -/
theorem C9_resolvers_amended : ∀ (r0 : Char) (rest2 ws up : List Char),
    r0 ≠ '/' → r0 ≠ '\\' → '$' ∉ (r0 :: rest2) → '$' ∉ ws → '$' ∉ up →
    (resolve_placeholder (wsPh ++ '/' :: r0 :: rest2) ws up
      = resolve_placeholder_v2 (wsPh ++ '/' :: r0 :: rest2) ws up) ∧
    (resolve_placeholder (upPh ++ '/' :: r0 :: rest2) ws up
      = resolve_placeholder_v2 (upPh ++ '/' :: r0 :: rest2) ws up) ∧
    (∀ path, '$' ∉ path → resolve_placeholder path ws up = resolve_placeholder_v2 path ws up) := by
  intro r0 rest2 ws up h0s h0b hrest hws hup
  have hrest' : '$' ∉ ('/' :: r0 :: rest2) := by
    intro h
    rcases List.mem_cons.mp h with h | h
    · exact absurd h.symm (by decide)
    · exact hrest h
  refine ⟨?_, ?_, ?_⟩
  · have htrait : resolve_placeholder (wsPh ++ '/' :: r0 :: rest2) ws up
        = ws ++ '/' :: r0 :: rest2 := by
      have h1 := (resolve_placeholder_cases (wsPh ++ '/' :: r0 :: rest2) ws up).1
        ('/' :: r0 :: rest2) rfl
      rw [h1]
      simp [trimSeparators, List.dropWhile_cons, h0s, h0b, pathJoin]
    have hv2 : resolve_placeholder_v2 (wsPh ++ '/' :: r0 :: rest2) ws up
        = ws ++ '/' :: r0 :: rest2 := by
      unfold resolve_placeholder_v2
      rw [replaceAll_head_match ws ('/' :: r0 :: rest2) (by decide)]
      rw [wsPh_cons, replaceAll_no_head ws hrest']
      rw [upPh_cons, replaceAll_no_head up (by
        intro h
        rcases List.mem_append.mp h with h | h
        · exact hws h
        · exact hrest' h)]
    rw [htrait, hv2]
  · have htrait : resolve_placeholder (upPh ++ '/' :: r0 :: rest2) ws up
        = up ++ '/' :: r0 :: rest2 := by
      have h1 := (resolve_placeholder_cases (upPh ++ '/' :: r0 :: rest2) ws up).2.1
        ('/' :: r0 :: rest2) rfl
      rw [h1]
      simp [trimSeparators, List.dropWhile_cons, h0s, h0b, pathJoin]
    have hv2 : resolve_placeholder_v2 (upPh ++ '/' :: r0 :: rest2) ws up
        = up ++ '/' :: r0 :: rest2 := by
      unfold resolve_placeholder_v2
      have hinner : replaceAll wsPh ws (upPh ++ '/' :: r0 :: rest2)
          = upPh ++ '/' :: r0 :: rest2 := by
        have hpre : wsPh.isPrefixOf (upPh ++ '/' :: r0 :: rest2) = false := by
          apply pre_false_of_take_ne (k := 2) (by decide)
          have h2 : (upPh ++ '/' :: r0 :: rest2).take 2 = upPh.take 2 :=
            List.take_append_of_le_length (by decide)
          rw [h2]
          decide
        have htail : replaceAll wsPh ws (upPh.tail ++ '/' :: r0 :: rest2)
            = upPh.tail ++ '/' :: r0 :: rest2 := by
          rw [wsPh_cons]
          apply replaceAll_no_head
          intro h
          rcases List.mem_append.mp h with h | h
          · exact absurd h (by decide)
          · exact hrest' h
        have hpre2 : wsPh.isPrefixOf ('$' :: (upPh.tail ++ '/' :: r0 :: rest2)) = false := by
          rw [← List.cons_append, ← upPh_cons]
          exact hpre
        rw [upPh_cons, List.cons_append, replaceAll_cons_nomatch ws hpre2, htail,
          ← List.cons_append, ← upPh_cons]
      rw [hinner, replaceAll_head_match up ('/' :: r0 :: rest2) (by decide)]
      rw [upPh_cons, replaceAll_no_head up hrest']
    rw [htrait, hv2]
  · intro path hpath
    have hw : wsPh.isPrefixOf path = false := by
      rw [wsPh_cons]
      exact pre_false_of_head_not_mem hpath
    have hu : upPh.isPrefixOf path = false := by
      rw [upPh_cons]
      exact pre_false_of_head_not_mem hpath
    have htrait : resolve_placeholder path ws up = path := by
      simp [resolve_placeholder, hw, hu]
    have hv2 : resolve_placeholder_v2 path ws up = path := by
      unfold resolve_placeholder_v2
      rw [wsPh_cons, replaceAll_no_head ws hpath, upPh_cons, replaceAll_no_head up hpath]
    rw [htrait, hv2]

/-- Witness for C9 amended at a concrete pattern, workspace and profile. -/
theorem C9_resolvers_amended_witness :
    resolve_placeholder (wsPh ++ '/' :: 'x' :: []) (("/w").data) (("/u").data)
      = resolve_placeholder_v2 (wsPh ++ '/' :: 'x' :: []) (("/w").data) (("/u").data) :=
  (C9_resolvers_amended 'x' [] (("/w").data) (("/u").data) (by decide) (by decide)
    (by decide) (by decide) (by decide)).1

/-- C8: loading the ledger reads the persisted map when the ledger file is
present, and on any parse failure of that file treats the ledger as empty and
still returns successfully to the caller. -/
theorem C8_ledger_load_lenient : ∀ (parse : String → Option Ledger) (contents : String),
    fileTracker_new parse none = .ok [] ∧
    (parse contents = none → fileTracker_new parse (some contents) = .ok ([] : Ledger)) ∧
    (∀ L, parse contents = some L → fileTracker_new parse (some contents) = .ok L) := by
  intro parse contents
  refine ⟨rfl, ?_, ?_⟩
  · intro h
    simp [fileTracker_new, h]
  · intro L h
    simp [fileTracker_new, h]

/-- Witness for C8: an always-failing parser yields a successfully loaded
empty ledger. -/
theorem C8_ledger_load_lenient_witness :
    fileTracker_new (fun _ => none) (some ("not json")) = .ok ([] : Ledger) :=
  (C8_ledger_load_lenient (fun _ => none) ("not json")).2.1 rfl

theorem get_metadata_record (ledger : Ledger) (p sha : String) (version : Nat) (now : String)
    (lang : Option String) (category : String) :
    get_metadata (record_installation ledger p sha version now lang category) p
      = some ⟨sha, version, now, lang, category⟩ := by
  simp [get_metadata, record_installation, resolve_absolute_path, List.lookup]

theorem read_file_delete (fs : FS) (p : String) : read_file (delete_file fs p) p = none := by
  unfold read_file delete_file
  induction fs with
  | nil => rfl
  | cons e t ih =>
    by_cases he : e.1 = p
    · simp [List.filter_cons, he, ih]
    · have hb : (p == e.1) = false := beq_eq_false_iff_ne.mpr (fun hh => he hh.symm)
      simp [List.filter_cons, List.lookup, he, bne_iff_ne, hb, ih]

/-- C2: the status query returns `NotTracked` when the ledger has no entry for
the path's resolved absolute form, `Deleted` when an entry exists but the path
no longer exists on disk, and otherwise recomputes the current content hash
and compares it to the stored one; hence record-then-status on an unchanged
file is `Unmodified`, deleting the file in between gives `Deleted`, and
mutating the content (to a different digest) gives `Modified`. -/
theorem C2_ledger_status_query : ∀ (hash : String → String) (ledger : Ledger) (fs : FS)
    (p : String),
    (get_metadata ledger p = none → check_modification hash ledger fs p = .NotTracked) ∧
    (∀ meta, get_metadata ledger p = some meta → read_file fs p = none →
      check_modification hash ledger fs p = .Deleted) ∧
    (∀ meta content, get_metadata ledger p = some meta → read_file fs p = some content →
      check_modification hash ledger fs p =
        (if hash content = meta.original_sha then .Unmodified else .Modified)) ∧
    (∀ content version now lang category, read_file fs p = some content →
      check_modification hash
        (record_installation ledger p (hash content) version now lang category) fs p
        = .Unmodified) ∧
    (∀ content version now lang category,
      check_modification hash
        (record_installation ledger p (hash content) version now lang category)
        (delete_file fs p) p = .Deleted) ∧
    (∀ c c2 version now lang category, read_file fs p = some c2 → hash c2 ≠ hash c →
      check_modification hash
        (record_installation ledger p (hash c) version now lang category) fs p
        = .Modified) := by
  intro hash ledger fs p
  refine ⟨?_, ?_, ?_, ?_, ?_, ?_⟩
  · intro h
    simp [check_modification, h]
  · intro meta h hr
    simp [check_modification, h, hr]
  · intro meta content h hr
    simp [check_modification, h, hr]
  · intro content version now lang category hr
    simp [check_modification, get_metadata_record, hr]
  · intro content version now lang category
    simp [check_modification, get_metadata_record, read_file_delete]
  · intro c c2 version now lang category hr hne
    simp [check_modification, get_metadata_record, hr, hne]

/-- Witness for C2: a concrete record-then-status round trip (identity digest)
through the unchanged, deleted and mutated cases. -/
theorem C2_ledger_status_query_witness :
    check_modification (fun s => s)
        (record_installation [] ("/ws/a.md") ("body") 1 ("t0") none ("main"))
        [(("/ws/a.md"), ("body"))] ("/ws/a.md") = .Unmodified ∧
    check_modification (fun s => s)
        (record_installation [] ("/ws/a.md") ("body") 1 ("t0") none ("main"))
        (delete_file [(("/ws/a.md"), ("body"))] ("/ws/a.md")) ("/ws/a.md") = .Deleted ∧
    check_modification (fun s => s)
        (record_installation [] ("/ws/a.md") ("body") 1 ("t0") none ("main"))
        [(("/ws/a.md"), ("edited"))] ("/ws/a.md") = .Modified := by
  refine ⟨?_, ?_, ?_⟩
  · exact (C2_ledger_status_query (fun s => s) [] [(("/ws/a.md"), ("body"))]
      ("/ws/a.md")).2.2.2.1 ("body") 1 ("t0") none ("main") (by decide)
  · exact (C2_ledger_status_query (fun s => s) [] [(("/ws/a.md"), ("body"))]
      ("/ws/a.md")).2.2.2.2.1 ("body") 1 ("t0") none ("main")
  · exact (C2_ledger_status_query (fun s => s) [] [(("/ws/a.md"), ("edited"))]
      ("/ws/a.md")).2.2.2.2.2 ("body") ("edited") 1 ("t0") none ("main") (by decide) (by decide)

/-- C1: the per-file write decision of the direct-copy loop prompts exactly
when the target exists, force is unset, and the ledger status is `NotTracked`
or `Modified`; in every other combination of the four ledger states and the
two force values (or with a missing target) it writes unconditionally. -/
theorem C1_conflict_policy_table : ∀ (hash : String → String) (ledger : Ledger) (fs : FS)
    (force : Bool) (target : String),
    copy_files_decision hash ledger fs force target = .promptUser ↔
      (file_exists fs target = true ∧ force = false ∧
        (check_modification hash ledger fs target = .NotTracked ∨
         check_modification hash ledger fs target = .Modified)) := by
  intro hash ledger fs force target
  unfold copy_files_decision
  cases hfe : file_exists fs target with
  | false => simp [hfe]
  | true =>
    cases force with
    | true => simp [hfe]
    | false =>
      cases hcm : check_modification hash ledger fs target with
      | NotTracked => simp [hfe, hcm]
      | Unmodified => simp [hfe, hcm]
      | Deleted => simp [hfe, hcm]
      | Modified =>
        have hgm : ∃ m, get_metadata ledger target = some m := by
          unfold check_modification at hcm
          cases hg : get_metadata ledger target with
          | none =>
            rw [hg] at hcm
            simp at hcm
          | some m => exact ⟨m, rfl⟩
        obtain ⟨m, hm⟩ := hgm
        simp [hfe, hcm, hm]

theorem lookup_bom_from_config_none : ∀ (agents : List (String × AgentConfig)) (name : String),
    name ∉ agents.map Prod.fst → List.lookup name (bom_from_config agents) = none := by
  intro agents
  induction agents with
  | nil => intro name _; rfl
  | cons e t ih =>
    intro name h
    obtain ⟨n0, cfg⟩ := e
    simp only [List.map_cons, List.mem_cons] at h
    push_neg at h
    obtain ⟨h1, h2⟩ := h
    by_cases hp : (agent_paths cfg).isEmpty
    · simp [bom_from_config, hp, ih name h2]
    · simp [bom_from_config, hp, List.lookup, beq_eq_false_iff_ne.mpr h1, ih name h2]

/-- C7 counterexample: an agent whose only entry targets `$userprofile` is
absent from the Bill of Materials altogether, whereas the claim requires every
agent name to be mapped (here to the empty list of qualifying paths). -/
theorem C7_bom_counterexample :
    bom_from_config [(("a"), ⟨some [⟨("s"), ("$userprofile/x")⟩], none⟩)] = [] := by
  decide

/-- C7 amended: the Bill of Materials maps an agent name to exactly the
resolved targets of its instruction and prompt entries that reference neither
the merge-placeholder nor the user-profile placeholder, for every agent that
has at least one such entry; an agent with none is absent from the map (and
the parsed manifest has no skill entries). -/
theorem C7_bom_amended : ∀ (agents : List (String × AgentConfig)) (name : String)
    (cfg : AgentConfig),
    (agents.map Prod.fst).Nodup → (name, cfg) ∈ agents →
    List.lookup name (bom_from_config agents)
      = (if agent_paths cfg = [] then none else some (agent_paths cfg)) := by
  intro agents
  induction agents with
  | nil =>
    intro name cfg _ h
    simp at h
  | cons e t ih =>
    intro name cfg hnd hmem
    obtain ⟨n0, c0⟩ := e
    have hnd1 : (n0 :: t.map Prod.fst).Nodup := by rw [List.map_cons] at hnd; exact hnd
    have hnd2 := List.nodup_cons.mp hnd1
    rcases List.mem_cons.mp hmem with heq | hmem2
    · rw [Prod.mk.injEq] at heq
      obtain ⟨rfl, rfl⟩ := heq
      by_cases hp : agent_paths cfg = []
      · have hemp : (agent_paths cfg).isEmpty = true := by simp [hp]
        have hred : bom_from_config ((name, cfg) :: t) = bom_from_config t := by
          simp [bom_from_config, hemp]
        rw [hred, lookup_bom_from_config_none t name hnd2.1, if_pos hp]
      · have hemp : (agent_paths cfg).isEmpty = false := by
          simpa [List.isEmpty_iff] using hp
        have hred : bom_from_config ((name, cfg) :: t)
            = (name, agent_paths cfg) :: bom_from_config t := by
          simp [bom_from_config, hemp]
        rw [hred, if_neg hp]
        simp [List.lookup]
    · have hne : name ≠ n0 := by
        intro hh
        subst hh
        exact hnd2.1 (by simpa using List.mem_map_of_mem Prod.fst hmem2)
      by_cases hp : (agent_paths c0).isEmpty
      · have hred : bom_from_config ((n0, c0) :: t) = bom_from_config t := by
          simp [bom_from_config, hp]
        rw [hred]
        exact ih name cfg hnd2.2 hmem2
      · have hred : bom_from_config ((n0, c0) :: t)
            = (n0, agent_paths c0) :: bom_from_config t := by
          simp [bom_from_config, hp]
        rw [hred]
        have hb : (name == n0) = false := beq_eq_false_iff_ne.mpr hne
        simp only [List.lookup, hb]
        exact ih name cfg hnd2.2 hmem2

/-- Witness for C7 amended: an agent with one `$workspace` instruction entry
is mapped to its single resolved path. -/
theorem C7_bom_amended_witness :
    List.lookup ("a") (bom_from_config
        [(("a"), ⟨some [⟨("s"), ("$workspace/AGENTS.md")⟩], none⟩)])
      = (if agent_paths ⟨some [⟨("s"), ("$workspace/AGENTS.md")⟩], none⟩ = []
         then none
         else some (agent_paths ⟨some [⟨("s"), ("$workspace/AGENTS.md")⟩], none⟩)) :=
  C7_bom_amended [(("a"), ⟨some [⟨("s"), ("$workspace/AGENTS.md")⟩], none⟩)] ("a")
    ⟨some [⟨("s"), ("$workspace/AGENTS.md")⟩], none⟩ (by decide) (by decide)

/-- C5: when any conflict prompt of the direct-copy loop answers quit, the v2
update returns cleanly (`Ok`), the filesystem keeps every write the loop made
before the quit, and the persisted ledger is the one from before the run — no
entry recorded during the run is saved. -/
theorem C5_quit_skips_ledger_save : ∀ (hash : String → String)
    (responses : Nat → FileActionResponse) (now : String) (version : Nat) (lang : String)
    (agent : Option String) (force : Bool) (files : List (String × String)) (fs0 : FS)
    (disk : Ledger) (st : CopyState),
    copy_files_v2 hash responses now version lang agent force files
        { fs := fs0, tracker := disk, promptIdx := 0 } [] = .ok (st, .Cancelled) →
    update_v2_copy_phase hash responses now version lang agent force files fs0 disk
      = .ok { fs := st.fs, diskLedger := disk, cancelled := true } := by
  intro hash responses now version lang agent force files fs0 disk st h
  unfold update_v2_copy_phase
  rw [h]

/-- Witness for C5: one not-tracked existing target, answer quit; the update
returns ok, the old file content survives, and the ledger file is untouched. -/
theorem C5_quit_skips_ledger_save_witness :
    update_v2_copy_phase (fun s => s) (fun _ => .Quit) ("t0") 2 ("rust") none false
        [(("src"), ("tgt"))] [(("src"), ("NEW")), (("tgt"), ("OLD"))] []
      = .ok { fs := [(("src"), ("NEW")), (("tgt"), ("OLD"))], diskLedger := [],
              cancelled := true } :=
  C5_quit_skips_ledger_save (fun s => s) (fun _ => .Quit) ("t0") 2 ("rust") none false
    [(("src"), ("tgt"))] [(("src"), ("NEW")), (("tgt"), ("OLD"))] []
    ⟨[(("src"), ("NEW")), (("tgt"), ("OLD"))], [], 1⟩ rfl

/-! ### The token/segment normal form of the category-merge loop -/

theorem ipTail_eq (c : List Char) : insertionPoint c
    = '<' :: ('!' :: '-' :: '-' :: ' ' :: '\x7b' :: (c ++ ['\x7d', ' ', '-', '-', '>'])) := rfl

theorem insertionPoint_ne_nil (c : List Char) : insertionPoint c ≠ [] := by
  rw [ipTail_eq]
  exact List.cons_ne_nil _ _

theorem lt_not_mem_ipTail {c : List Char} (hc : '<' ∉ c) :
    '<' ∉ ('!' :: '-' :: '-' :: ' ' :: '\x7b' :: (c ++ ['\x7d', ' ', '-', '-', '>'])) := by
  intro h
  simp only [List.mem_cons] at h
  rcases h with h | h | h | h | h | h
  · exact absurd h (by decide)
  · exact absurd h (by decide)
  · exact absurd h (by decide)
  · exact absurd h (by decide)
  · exact absurd h (by decide)
  · rcases List.mem_append.mp h with h | h
    · exact hc h
    · exact absurd h (by decide)

theorem cat_core_mismatch : ∀ (c1 c2 y : List Char), c1 ≠ c2 → '\x7d' ∉ c1 → '\x7d' ∉ c2 →
    (c1 ++ ['\x7d', ' ', '-', '-', '>']).isPrefixOf
      (c2 ++ (['\x7d', ' ', '-', '-', '>'] ++ y)) = false := by
  intro c1
  induction c1 with
  | nil =>
    intro c2 y hne _ h2
    cases c2 with
    | nil => exact absurd rfl hne
    | cons d c2t =>
      have hd : d ≠ '\x7d' := fun hh => h2 (hh ▸ List.mem_cons_self d c2t)
      simp only [List.nil_append, List.cons_append]
      exact pre_head_ne hd
  | cons d1 c1t ih =>
    intro c2 y hne h1 h2
    cases c2 with
    | nil =>
      have hd : d1 ≠ '\x7d' := fun hh => h1 (hh ▸ List.mem_cons_self d1 c1t)
      simp only [List.cons_append, List.nil_append]
      exact pre_head_ne (fun hh => hd hh.symm)
    | cons d2 c2t =>
      by_cases hd : d1 = d2
      · subst hd
        simp only [List.cons_append, isPrefixOf_cons_cons, beq_self_eq_true, Bool.true_and]
        have hne2 : c1t ≠ c2t := fun hh => hne (by rw [hh])
        exact ih c2t y hne2 (fun hh => h1 (List.mem_cons_of_mem _ hh))
          (fun hh => h2 (List.mem_cons_of_mem _ hh))
      · simp only [List.cons_append, isPrefixOf_cons_cons]
        have hb : (d1 == d2) = false := beq_eq_false_iff_ne.mpr hd
        simp [hb]

theorem tok_not_pre_tok {c1 c2 : List Char} (hne : c1 ≠ c2) (h1 : '\x7d' ∉ c1)
    (h2 : '\x7d' ∉ c2) (y : List Char) :
    (insertionPoint c1).isPrefixOf (insertionPoint c2 ++ y) = false := by
  simp only [insertionPoint, List.cons_append, isPrefixOf_cons_cons, beq_self_eq_true,
    Bool.true_and]
  rw [List.append_assoc]
  exact cat_core_mismatch c1 c2 y hne h1 h2

theorem marker_not_pre_tok (c y : List Char) :
    markerData.isPrefixOf (insertionPoint c ++ y) = false := by
  apply pre_false_of_take_ne (k := 6) (by decide)
  have h2 : (insertionPoint c ++ y).take 6 = ['<', '!', '-', '-', ' ', '\x7b'] := rfl
  rw [h2]
  decide

theorem markerLine_not_pre_tok (c y : List Char) :
    markerLine.isPrefixOf (insertionPoint c ++ y) = false := by
  apply pre_false_of_take_ne (k := 6) (by decide)
  have h2 : (insertionPoint c ++ y).take 6 = ['<', '!', '-', '-', ' ', '\x7b'] := rfl
  rw [h2]
  decide

theorem replaceAll_walk_tok {n : List Char} (rep : List Char) {c2 X : List Char}
    (hn : n = '<' :: n.tail) (hc2 : '<' ∉ c2)
    (hnm : n.isPrefixOf (insertionPoint c2 ++ X) = false) :
    replaceAll n rep (insertionPoint c2 ++ X) = insertionPoint c2 ++ replaceAll n rep X := by
  have hip : insertionPoint c2 ++ X
      = '<' :: (('!' :: '-' :: '-' :: ' ' :: '\x7b' :: (c2 ++ ['\x7d', ' ', '-', '-', '>'])) ++ X) := by
    simp [insertionPoint, List.cons_append]
  rw [hip] at hnm ⊢
  rw [replaceAll_cons_nomatch rep hnm]
  rw [hn, replaceAll_skip rep _ X (lt_not_mem_ipTail hc2)]
  simp [insertionPoint, List.cons_append]

theorem occursIn_walk_tok {n : List Char} {c2 X : List Char}
    (hn : n = '<' :: n.tail) (hc2 : '<' ∉ c2)
    (hnm : n.isPrefixOf (insertionPoint c2 ++ X) = false) :
    occursIn n (insertionPoint c2 ++ X) = occursIn n X := by
  have hip : insertionPoint c2 ++ X
      = '<' :: (('!' :: '-' :: '-' :: ' ' :: '\x7b' :: (c2 ++ ['\x7d', ' ', '-', '-', '>'])) ++ X) := by
    simp [insertionPoint, List.cons_append]
  rw [hip] at hnm ⊢
  rw [occursIn_cons, hnm, Bool.false_or]
  conv_lhs => rw [hn]
  rw [occursIn_skip _ X (lt_not_mem_ipTail hc2), ← hn]

theorem renderTail_scan {n : List Char} (hn : n = '<' :: n.tail) :
    ∀ l, catsOk l → segsOk l →
    (∀ e ∈ l, ∀ y, n.isPrefixOf (insertionPoint e.1 ++ y) = false) →
    (∀ rep, replaceAll n rep (renderTail l) = renderTail l) ∧
      occursIn n (renderTail l) = false := by
  intro l
  induction l with
  | nil =>
    intro _ _ _
    refine ⟨fun rep => rfl, ?_⟩
    rw [hn]
    exact occursIn_nil _ _
  | cons e t ih =>
    intro hcats hsegs hfail
    obtain ⟨c2, s⟩ := e
    have hc2 : goodCat c2 := hcats (c2, s) (List.mem_cons_self _ _)
    have hs : '<' ∉ s := hsegs (c2, s) (List.mem_cons_self _ _)
    have hcats2 : catsOk t := fun e he => hcats e (List.mem_cons_of_mem _ he)
    have hsegs2 : segsOk t := fun e he => hsegs e (List.mem_cons_of_mem _ he)
    have hfail2 : ∀ e ∈ t, ∀ y, n.isPrefixOf (insertionPoint e.1 ++ y) = false :=
      fun e he y => hfail e (List.mem_cons_of_mem _ he) y
    obtain ⟨ihr, iho⟩ := ih hcats2 hsegs2 hfail2
    have hrt : renderTail ((c2, s) :: t) = insertionPoint c2 ++ (s ++ renderTail t) :=
      List.append_assoc _ _ _
    constructor
    · intro rep
      rw [hrt, replaceAll_walk_tok rep hn hc2.1
        (hfail (c2, s) (List.mem_cons_self _ _) (s ++ renderTail t))]
      conv_lhs => rw [hn]
      rw [replaceAll_skip rep s (renderTail t) hs, ← hn, ihr rep]
    · rw [hrt, occursIn_walk_tok hn hc2.1
        (hfail (c2, s) (List.mem_cons_self _ _) (s ++ renderTail t))]
      conv_lhs => rw [hn]
      rw [occursIn_skip s (renderTail t) hs, ← hn, iho]

theorem replaceAll_ip_skip (c rep x y : List Char) (hx : '<' ∉ x) :
    replaceAll (insertionPoint c) rep (x ++ y) = x ++ replaceAll (insertionPoint c) rep y := by
  rw [ipTail_eq]
  exact replaceAll_skip rep x y hx

theorem occursIn_ip_skip (c x y : List Char) (hx : '<' ∉ x) :
    occursIn (insertionPoint c) (x ++ y) = occursIn (insertionPoint c) y := by
  rw [ipTail_eq]
  exact occursIn_skip x y hx

theorem occursIn_ip_nil (c : List Char) : occursIn (insertionPoint c) [] = false := by
  rw [ipTail_eq]
  exact occursIn_nil _ _

theorem replaceAll_renderTail_hit : ∀ (l : List (List Char × List Char)) (c ins : List Char),
    catsOk l → segsOk l → goodCat c →
    replaceAll (insertionPoint c) (insertionPoint c ++ ins) (renderTail l)
      = renderTail (updIns c ins l) := by
  intro l
  induction l with
  | nil => intro c ins _ _ _; rfl
  | cons e t ih =>
    intro c ins hcats hsegs hc
    obtain ⟨c2, s⟩ := e
    have hc2 : goodCat c2 := hcats (c2, s) (List.mem_cons_self _ _)
    have hs : '<' ∉ s := hsegs (c2, s) (List.mem_cons_self _ _)
    have hcats2 : catsOk t := fun e he => hcats e (List.mem_cons_of_mem _ he)
    have hsegs2 : segsOk t := fun e he => hsegs e (List.mem_cons_of_mem _ he)
    have hrt : renderTail ((c2, s) :: t) = insertionPoint c2 ++ (s ++ renderTail t) :=
      List.append_assoc _ _ _
    by_cases hcc : c2 = c
    · subst hcc
      rw [hrt, replaceAll_head_match _ _ (insertionPoint_ne_nil c2),
        replaceAll_ip_skip c2 _ s (renderTail t) hs, ih c2 ins hcats2 hsegs2 hc]
      have hupd : updIns c2 ins ((c2, s) :: t) = (c2, ins ++ s) :: updIns c2 ins t := by
        simp [updIns]
      rw [hupd]
      simp [renderTail, List.append_assoc]
    · have hnm : (insertionPoint c).isPrefixOf (insertionPoint c2 ++ (s ++ renderTail t))
          = false :=
        tok_not_pre_tok (fun hh => hcc hh.symm) hc.2 hc2.2 _
      rw [hrt, replaceAll_walk_tok _ rfl hc2.1 hnm,
        replaceAll_ip_skip c _ s (renderTail t) hs, ih c ins hcats2 hsegs2 hc]
      have hupd : updIns c ins ((c2, s) :: t) = (c2, s) :: updIns c ins t := by
        simp [updIns, hcc]
      rw [hupd]
      simp [renderTail, List.append_assoc]

theorem occursIn_renderTail : ∀ (l : List (List Char × List Char)) (c : List Char),
    catsOk l → segsOk l → goodCat c →
    (occursIn (insertionPoint c) (renderTail l) = true ↔ c ∈ l.map Prod.fst) := by
  intro l
  induction l with
  | nil =>
    intro c _ _ _
    rw [show renderTail ([] : List (List Char × List Char)) = [] from rfl, occursIn_ip_nil]
    simp
  | cons e t ih =>
    intro c hcats hsegs hc
    obtain ⟨c2, s⟩ := e
    have hc2 : goodCat c2 := hcats (c2, s) (List.mem_cons_self _ _)
    have hs : '<' ∉ s := hsegs (c2, s) (List.mem_cons_self _ _)
    have hcats2 : catsOk t := fun e he => hcats e (List.mem_cons_of_mem _ he)
    have hsegs2 : segsOk t := fun e he => hsegs e (List.mem_cons_of_mem _ he)
    have hrt : renderTail ((c2, s) :: t) = insertionPoint c2 ++ (s ++ renderTail t) :=
      List.append_assoc _ _ _
    by_cases hcc : c2 = c
    · subst hcc
      rw [hrt, ipTail_eq, occursIn_head_match]
      simp
    · have hnm : (insertionPoint c).isPrefixOf (insertionPoint c2 ++ (s ++ renderTail t))
          = false :=
        tok_not_pre_tok (fun hh => hcc hh.symm) hc.2 hc2.2 _
      rw [hrt, occursIn_walk_tok rfl hc2.1 hnm,
        occursIn_ip_skip c s (renderTail t) hs, ih c hcats2 hsegs2 hc]
      have hne : c ≠ c2 := fun hh => hcc hh.symm
      simp [List.map_cons, List.mem_cons, hne]

theorem updIns_not_mem (c ins : List Char) : ∀ (l : List (List Char × List Char)),
    c ∉ l.map Prod.fst → updIns c ins l = l := by
  intro l
  induction l with
  | nil => intro _; rfl
  | cons e t ih =>
    intro h
    simp only [List.map_cons, List.mem_cons] at h
    push_neg at h
    obtain ⟨h1, h2⟩ := h
    show (if e.1 = c then (e.1, ins ++ e.2) else e) :: updIns c ins t = e :: t
    rw [if_neg (fun hh => h1 hh.symm), ih h2]

theorem updIns_map_fst (c ins : List Char) : ∀ (l : List (List Char × List Char)),
    (updIns c ins l).map Prod.fst = l.map Prod.fst := by
  intro l
  induction l with
  | nil => rfl
  | cons e t ih =>
    by_cases he : e.1 = c
    · simp [updIns, he] at ih ⊢
      exact ih
    · simp [updIns, he] at ih ⊢
      exact ih

theorem applyGroup_catsOk {l : List (List Char × List Char)}
    {g : List Char × List (List Char)} (h : catsOk l) : catsOk (applyGroup l g) := by
  intro e he
  obtain ⟨e0, he0, rfl⟩ := List.mem_map.mp he
  by_cases hc : e0.1 = g.1
  · rw [if_pos hc]
    exact h e0 he0
  · rw [if_neg hc]
    exact h e0 he0

theorem applyGroup_segsOk {l : List (List Char × List Char)}
    {g : List Char × List (List Char)} (h : segsOk l)
    (hins : '<' ∉ nlnl ++ combinedContents g.2) : segsOk (applyGroup l g) := by
  intro e he
  obtain ⟨e0, he0, rfl⟩ := List.mem_map.mp he
  by_cases hc : e0.1 = g.1
  · simp only [hc, if_pos rfl]
    intro hm
    rcases List.mem_append.mp hm with hm | hm
    · exact hins hm
    · exact h e0 he0 hm
  · simp only [if_neg hc]
    exact h e0 he0

theorem categoryStep_render (s0 : List Char) (l : List (List Char × List Char))
    (g : List Char × List (List Char)) (hs0 : '<' ∉ s0) (hcats : catsOk l) (hsegs : segsOk l)
    (hg : goodCat g.1) (hb : '<' ∉ nlnl ++ combinedContents g.2) :
    categoryStep (s0 ++ renderTail l) g = s0 ++ renderTail (applyGroup l g) := by
  by_cases hmem : g.1 ∈ l.map Prod.fst
  · have hocc : occursIn (insertionPoint g.1) (s0 ++ renderTail l) = true := by
      rw [occursIn_ip_skip g.1 s0 _ hs0]
      exact (occursIn_renderTail l g.1 hcats hsegs hg).mpr hmem
    simp only [categoryStep, hocc, if_pos]
    rw [replaceAll_ip_skip g.1 _ s0 _ hs0,
      List.append_assoc (insertionPoint g.1) nlnl (combinedContents g.2),
      replaceAll_renderTail_hit l g.1 (nlnl ++ combinedContents g.2) hcats hsegs hg]
    rfl
  · have hocc : occursIn (insertionPoint g.1) (s0 ++ renderTail l) = false := by
      rw [occursIn_ip_skip g.1 s0 _ hs0]
      cases h2 : occursIn (insertionPoint g.1) (renderTail l) with
      | false => rfl
      | true => exact absurd ((occursIn_renderTail l g.1 hcats hsegs hg).mp h2) hmem
    simp only [categoryStep, hocc, Bool.false_eq_true, if_false]
    unfold applyGroup
    rw [updIns_not_mem g.1 (nlnl ++ combinedContents g.2) l hmem]

theorem processCategories_render : ∀ (order : List (List Char × List (List Char)))
    (s0 : List Char) (l : List (List Char × List Char)),
    '<' ∉ s0 → catsOk l → segsOk l →
    (∀ g ∈ order, goodCat g.1 ∧ '<' ∉ nlnl ++ combinedContents g.2) →
    processCategories (s0 ++ renderTail l) order
      = s0 ++ renderTail (order.foldl applyGroup l) := by
  intro order
  induction order with
  | nil => intro s0 l _ _ _ _; rfl
  | cons g rest ih =>
    intro s0 l hs0 hcats hsegs hgood
    have hg := hgood g (List.mem_cons_self _ _)
    have hgood2 : ∀ g2 ∈ rest, goodCat g2.1 ∧ '<' ∉ nlnl ++ combinedContents g2.2 :=
      fun g2 h2 => hgood g2 (List.mem_cons_of_mem _ h2)
    simp only [processCategories, List.foldl_cons]
    rw [show List.foldl categoryStep (categoryStep (s0 ++ renderTail l) g) rest
        = processCategories (categoryStep (s0 ++ renderTail l) g) rest from rfl]
    rw [categoryStep_render s0 l g hs0 hcats hsegs hg.1 hg.2]
    exact ih s0 (applyGroup l g) hs0 (applyGroup_catsOk hcats)
      (applyGroup_segsOk hsegs hg.2) hgood2

theorem trimChars_subset {x : Char} {b : List Char} (h : x ∈ trimChars b) : x ∈ b := by
  unfold trimChars at h
  have h1 := List.mem_reverse.mp h
  have h2 := List.Sublist.mem h1 (List.dropWhile_sublist _)
  have h3 := List.mem_reverse.mp h2
  exact List.Sublist.mem h3 (List.dropWhile_sublist _)

theorem joinSep_not_mem {x : Char} {sep : List Char} (hsep : x ∉ sep) :
    ∀ L : List (List Char), (∀ b ∈ L, x ∉ b) → x ∉ joinSep sep L := by
  intro L
  induction L with
  | nil =>
    intro _
    simp [joinSep]
  | cons b rest ih =>
    intro h
    cases rest with
    | nil => simpa [joinSep] using h b (List.mem_cons_self _ _)
    | cons b2 rest2 =>
      intro hx
      simp only [joinSep] at hx
      rcases List.mem_append.mp hx with h1 | h1
      · rcases List.mem_append.mp h1 with h2 | h2
        · exact h b (List.mem_cons_self _ _) h2
        · exact hsep h2
      · exact ih (fun bb hb => h bb (List.mem_cons_of_mem _ hb)) h1

theorem combined_no_lt {contents : List (List Char)} (h : ∀ b ∈ contents, '<' ∉ b) :
    '<' ∉ nlnl ++ combinedContents contents := by
  intro hx
  rcases List.mem_append.mp hx with h1 | h1
  · exact absurd h1 (by decide)
  · refine joinSep_not_mem (by decide) (contents.map trimChars) ?_ h1
    intro b hb
    obtain ⟨b0, hb0, rfl⟩ := List.mem_map.mp hb
    exact fun hm => h b0 hb0 (trimChars_subset hm)

theorem updIns_comm {c1 c2 : List Char} (i1 i2 : List Char) (h : c1 ≠ c2) :
    ∀ l, updIns c1 i1 (updIns c2 i2 l) = updIns c2 i2 (updIns c1 i1 l) := by
  intro l
  induction l with
  | nil => rfl
  | cons e t ih =>
    show (fun e => if e.1 = c1 then (e.1, i1 ++ e.2) else e)
          ((fun e => if e.1 = c2 then (e.1, i2 ++ e.2) else e) e) :: updIns c1 i1 (updIns c2 i2 t)
        = (fun e => if e.1 = c2 then (e.1, i2 ++ e.2) else e)
          ((fun e => if e.1 = c1 then (e.1, i1 ++ e.2) else e) e) :: updIns c2 i2 (updIns c1 i1 t)
    rw [ih]
    by_cases h2 : e.1 = c2
    · have h1 : e.1 ≠ c1 := fun hh => h (hh.symm.trans h2)
      have h21 : c2 ≠ c1 := Ne.symm h
      simp [h1, h2, h21]
    · by_cases h1 : e.1 = c1
      · simp [h1, h2, h]
      · simp [h1, h2]

theorem foldl_applyGroup_perm {order1 order2 : List (List Char × List (List Char))}
    (hperm : order1.Perm order2) (hnd : (order1.map Prod.fst).Nodup)
    (l : List (List Char × List Char)) :
    order1.foldl applyGroup l = order2.foldl applyGroup l := by
  apply List.Perm.foldl_eq' hperm ?_ l
  intro x hx y hy z
  by_cases hxy : x = y
  · rw [hxy]
  · have hne : x.1 ≠ y.1 := fun hh => hxy (List.inj_on_of_nodup_map hnd hx hy hh)
    unfold applyGroup
    exact updIns_comm _ _ (Ne.symm hne) z

theorem addFragment_good : ∀ (G : List (List Char × List (List Char))) (cat content : List Char),
    (∀ g ∈ G, goodCat g.1 ∧ ∀ b ∈ g.2, '<' ∉ b) → goodCat cat → '<' ∉ content →
    ∀ g ∈ addFragment G cat content, goodCat g.1 ∧ ∀ b ∈ g.2, '<' ∉ b := by
  intro G
  induction G with
  | nil =>
    intro cat content _ hc hcont g hg
    rcases List.mem_singleton.mp hg with rfl
    refine ⟨hc, ?_⟩
    intro b hb
    rcases List.mem_singleton.mp hb with rfl
    exact hcont
  | cons e t ih =>
    intro cat content hG hc hcont g hg
    obtain ⟨k, vs⟩ := e
    by_cases hk : k = cat
    · rw [show addFragment ((k, vs) :: t) cat content = (k, vs ++ [content]) :: t from by
        simp [addFragment, hk]] at hg
      rcases List.mem_cons.mp hg with rfl | hg2
      · have he := hG (k, vs) (List.mem_cons_self _ _)
        refine ⟨he.1, ?_⟩
        intro b hb
        rcases List.mem_append.mp hb with hb | hb
        · exact he.2 b hb
        · rcases List.mem_singleton.mp hb with rfl
          exact hcont
      · exact hG g (List.mem_cons_of_mem _ hg2)
    · rw [show addFragment ((k, vs) :: t) cat content = (k, vs) :: addFragment t cat content
        from by simp [addFragment, hk]] at hg
      rcases List.mem_cons.mp hg with rfl | hg2
      · exact hG (k, vs) (List.mem_cons_self _ _)
      · exact ih cat content (fun g2 h2 => hG g2 (List.mem_cons_of_mem _ h2)) hc hcont g hg2

theorem foldl_addFragment_good : ∀ (frags : List (List Char × List Char))
    (G : List (List Char × List (List Char))),
    (∀ g ∈ G, goodCat g.1 ∧ ∀ b ∈ g.2, '<' ∉ b) →
    (∀ fc ∈ frags, '<' ∉ fc.1 ∧ goodCat fc.2) →
    ∀ g ∈ frags.foldl (fun g fc => addFragment g fc.2 fc.1) G,
      goodCat g.1 ∧ ∀ b ∈ g.2, '<' ∉ b := by
  intro frags
  induction frags with
  | nil => intro G hG _ g hg; exact hG g hg
  | cons fc rest ih =>
    intro G hG hf g hg
    have hfc := hf fc (List.mem_cons_self _ _)
    exact ih (addFragment G fc.2 fc.1)
      (addFragment_good G fc.2 fc.1 hG hfc.2 hfc.1)
      (fun f2 h2 => hf f2 (List.mem_cons_of_mem _ h2)) g hg

theorem buildGroups_good : ∀ (no_lang : Bool) (frags : List (List Char × List Char))
    (mission : Option (List Char)),
    (∀ fc ∈ frags, '<' ∉ fc.1 ∧ goodCat fc.2) →
    (∀ m, mission = some m → '<' ∉ m) →
    ∀ g ∈ buildGroups no_lang frags mission, goodCat g.1 ∧ ∀ b ∈ g.2, '<' ∉ b := by
  intro no_lang frags mission hf hm
  have hg0 : ∀ g ∈ (if no_lang then [(langCatL, ([] : List (List Char)))] else []),
      goodCat g.1 ∧ ∀ b ∈ g.2, '<' ∉ b := by
    cases no_lang with
    | false => intro g hg; simp at hg
    | true =>
      intro g hg
      rcases List.mem_singleton.mp hg with rfl
      exact ⟨⟨by decide, by decide⟩, by intro b hb; simp at hb⟩
  have hg1 := foldl_addFragment_good frags _ hg0 hf
  cases mission with
  | none => exact hg1
  | some m =>
    have hmm : '<' ∉ missionHeader ++ trimChars m := by
      intro hx
      rcases List.mem_append.mp hx with h1 | h1
      · exact absurd h1 (by decide)
      · exact hm m rfl (trimChars_subset h1)
    exact addFragment_good _ missionCatL (missionHeader ++ trimChars m) hg1
      ⟨by decide, by decide⟩ hmm

theorem addFragment_keys : ∀ (G : List (List Char × List (List Char))) (cat content : List Char),
    (addFragment G cat content).map Prod.fst
      = if cat ∈ G.map Prod.fst then G.map Prod.fst else G.map Prod.fst ++ [cat] := by
  intro G
  induction G with
  | nil => intro cat content; simp [addFragment]
  | cons e t ih =>
    intro cat content
    obtain ⟨k, vs⟩ := e
    by_cases hk : k = cat
    · subst hk
      simp [addFragment]
    · rw [show addFragment ((k, vs) :: t) cat content = (k, vs) :: addFragment t cat content
        from by simp [addFragment, hk]]
      simp only [List.map_cons, ih cat content, List.mem_cons]
      have hck : cat ≠ k := fun hh => hk hh.symm
      by_cases hmem : cat ∈ t.map Prod.fst
      · simp [hmem, hck]
      · simp [hmem, hck]

theorem addFragment_keys_nodup {G : List (List Char × List (List Char))} {cat content : List Char}
    (h : (G.map Prod.fst).Nodup) : ((addFragment G cat content).map Prod.fst).Nodup := by
  rw [addFragment_keys]
  by_cases hmem : cat ∈ G.map Prod.fst
  · simpa [hmem] using h
  · rw [if_neg hmem]
    refine List.Nodup.append h (by simp) ?_
    intro a ha hb
    rcases List.mem_singleton.mp hb with rfl
    exact hmem ha

theorem foldl_addFragment_keys_nodup : ∀ (frags : List (List Char × List Char))
    (G : List (List Char × List (List Char))), (G.map Prod.fst).Nodup →
    ((frags.foldl (fun g fc => addFragment g fc.2 fc.1) G).map Prod.fst).Nodup := by
  intro frags
  induction frags with
  | nil => intro G hG; exact hG
  | cons fc rest ih => intro G hG; exact ih _ (addFragment_keys_nodup hG)

theorem buildGroups_keys_nodup (no_lang : Bool) (frags : List (List Char × List Char))
    (mission : Option (List Char)) :
    ((buildGroups no_lang frags mission).map Prod.fst).Nodup := by
  have hg0 : ((if no_lang then [(langCatL, ([] : List (List Char)))] else []).map
      Prod.fst).Nodup := by
    cases no_lang <;> simp
  have hg1 := foldl_addFragment_keys_nodup frags _ hg0
  cases mission with
  | none => exact hg1
  | some m => exact addFragment_keys_nodup hg1

theorem foldl_addFragment_single : ∀ (frags : List (List Char × List Char))
    (acc : List (List Char)), (∀ fc ∈ frags, fc.2 = langCatL) →
    frags.foldl (fun g fc => addFragment g fc.2 fc.1) [(langCatL, acc)]
      = [(langCatL, acc ++ frags.map Prod.fst)] := by
  intro frags
  induction frags with
  | nil => intro acc _; simp
  | cons fc rest ih =>
    intro acc h
    have hfc : fc.2 = langCatL := h fc (List.mem_cons_self _ _)
    have hstep : addFragment [(langCatL, acc)] fc.2 fc.1 = [(langCatL, acc ++ [fc.1])] := by
      simp [addFragment, hfc]
    simp only [List.foldl_cons, hstep]
    rw [ih (acc ++ [fc.1]) (fun f2 h2 => h f2 (List.mem_cons_of_mem _ h2))]
    simp

theorem buildGroups_all_lang : ∀ (frags : List (List Char × List Char)), frags ≠ [] →
    (∀ fc ∈ frags, fc.2 = langCatL) →
    buildGroups false frags none = [(langCatL, frags.map Prod.fst)] := by
  intro frags hne h
  cases frags with
  | nil => exact absurd rfl hne
  | cons fc rest =>
    have hfc : fc.2 = langCatL := h fc (List.mem_cons_self _ _)
    have h0 : buildGroups false (fc :: rest) none
        = rest.foldl (fun g fc => addFragment g fc.2 fc.1) (addFragment [] fc.2 fc.1) := rfl
    rw [h0, show addFragment [] fc.2 fc.1 = [(langCatL, [fc.1])] from by simp [addFragment, hfc]]
    rw [foldl_addFragment_single rest [fc.1] (fun f2 h2 => h f2 (List.mem_cons_of_mem _ h2))]
    simp

theorem markerLine_cons : markerLine = '<' :: markerLine.tail := by decide

theorem markerData_cons : markerData = '<' :: markerData.tail := by decide

theorem stripMarker_render (a s0 : List Char) (l : List (List Char × List Char))
    (ha : '<' ∉ a) (hs0 : '<' ∉ s0) (hcats : catsOk l) (hsegs : segsOk l) :
    stripMarker (a ++ (markerLine ++ (s0 ++ renderTail l)))
      = a ++ (s0 ++ renderTail l) := by
  unfold stripMarker
  rw [markerLine_cons, replaceAll_skip [] a _ ha, ← markerLine_cons]
  rw [replaceAll_head_match [] _ (by rw [markerLine_cons]; exact List.cons_ne_nil _ _)]
  rw [markerLine_cons, replaceAll_skip [] s0 _ hs0, ← markerLine_cons]
  have hscan := (renderTail_scan markerLine_cons l hcats hsegs
    (fun e _ y => markerLine_not_pre_tok e.1 y)).1 []
  rw [hscan]
  simp

theorem stripMarker_no_marker (s0 : List Char) (l : List (List Char × List Char))
    (hs0 : '<' ∉ s0) (hcats : catsOk l) (hsegs : segsOk l) :
    stripMarker (s0 ++ renderTail l) = s0 ++ renderTail l := by
  unfold stripMarker
  rw [markerLine_cons, replaceAll_skip [] s0 _ hs0, ← markerLine_cons]
  have hscan := (renderTail_scan markerLine_cons l hcats hsegs
    (fun e _ y => markerLine_not_pre_tok e.1 y)).1 []
  rw [hscan]

theorem occursIn_marker_render_false (s0 : List Char) (l : List (List Char × List Char))
    (hs0 : '<' ∉ s0) (hcats : catsOk l) (hsegs : segsOk l) :
    occursIn markerData (s0 ++ renderTail l) = false := by
  rw [markerData_cons, occursIn_skip s0 _ hs0, ← markerData_cons]
  exact (renderTail_scan markerData_cons l hcats hsegs
    (fun e _ y => marker_not_pre_tok e.1 y)).2

theorem foldl_applyGroup_ok : ∀ (order : List (List Char × List (List Char)))
    (l : List (List Char × List Char)), catsOk l → segsOk l →
    (∀ g ∈ order, '<' ∉ nlnl ++ combinedContents g.2) →
    catsOk (order.foldl applyGroup l) ∧ segsOk (order.foldl applyGroup l) := by
  intro order
  induction order with
  | nil => intro l hc hs _; exact ⟨hc, hs⟩
  | cons g rest ih =>
    intro l hc hs hgood
    exact ih (applyGroup l g) (applyGroup_catsOk hc)
      (applyGroup_segsOk hs (hgood g (List.mem_cons_self _ _)))
      (fun g2 h2 => hgood g2 (List.mem_cons_of_mem _ h2))

theorem goodCat_langCatL : goodCat langCatL := ⟨by decide, by decide⟩

set_option maxRecDepth 8192 in
/-- C3 counterexample: the Merge Engine does not strip exactly one marker
occurrence, and produced documents are not always marker-free — a source that
is the bare marker without a trailing newline keeps its marker in the merged
output, and a source with two newline-terminated marker lines loses both. -/
theorem C3_marker_counterexample :
    occursIn markerData (merge_fragments markerData [] false (some (("m").data))) = true ∧
    merge_fragments (markerLine ++ (markerLine ++ (("tail").data))) [] false
        (some (("m").data)) = ("tail").data := by
  constructor
  · decide
  · decide

/-- C3 amended: the Merge Engine strips every newline-terminated occurrence of
the marker line (a marker not followed by a newline survives); for a source
made of `<`-free text around one newline-terminated marker line and
insertion-point tokens of well-formed categories, with `<`-free fragment
bodies and mission, the produced document contains no marker; a document
copied verbatim (no fragments, no mission) is returned unchanged, so it keeps
the marker exactly when the source had it. -/
theorem C3_marker_amended : ∀ (a s0 : List Char) (l : List (List Char × List Char))
    (frags : List (List Char × List Char)) (no_lang : Bool) (mission : Option (List Char))
    (src : List Char),
    src = a ++ (markerLine ++ (s0 ++ renderTail l)) →
    '<' ∉ a → '<' ∉ s0 → catsOk l → segsOk l →
    (∀ fc ∈ frags, '<' ∉ fc.1 ∧ goodCat fc.2) →
    (∀ m, mission = some m → '<' ∉ m) →
    occursIn markerData (merge_fragments src frags no_lang mission) = false ∧
    (∀ (src2 : List Char) (fl : Bool), handle_main_template src2 [] fl none = src2) := by
  intro a s0 l frags no_lang mission src hsrc ha hs0 hcats hsegs hf hm
  constructor
  · subst hsrc
    unfold merge_fragments mergeFragmentsOrd
    rw [stripMarker_render a s0 l ha hs0 hcats hsegs]
    rw [← List.append_assoc]
    have hgood : ∀ g ∈ buildGroups no_lang frags mission,
        goodCat g.1 ∧ '<' ∉ nlnl ++ combinedContents g.2 := by
      intro g hg
      have h2 := buildGroups_good no_lang frags mission hf hm g hg
      exact ⟨h2.1, combined_no_lt h2.2⟩
    have has0 : '<' ∉ a ++ s0 := by
      intro hx
      rcases List.mem_append.mp hx with hx | hx
      · exact ha hx
      · exact hs0 hx
    rw [processCategories_render _ (a ++ s0) l has0 hcats hsegs hgood]
    have hok := foldl_applyGroup_ok (buildGroups no_lang frags mission) l hcats hsegs
      (fun g hg => (hgood g hg).2)
    exact occursIn_marker_render_false (a ++ s0) _ has0 hok.1 hok.2
  · intro src2 fl
    simp [handle_main_template]

/-- Witness for C3 amended: a concrete document with one marker line and one
insertion-point token merges to marker-free output. -/
theorem C3_marker_amended_witness :
    occursIn markerData (merge_fragments
        ((("A\n").data) ++ (markerLine ++ (([] : List Char)
          ++ renderTail [(langCatL, ("X").data)])))
        [((("F").data), langCatL)] false none) = false :=
  (C3_marker_amended (("A\n").data) [] [(langCatL, ("X").data)] [((("F").data), langCatL)]
    false none _ rfl (by decide) (by decide) (by decide) (by decide) (by decide)
    (fun m hm => Option.noConfusion hm)).1

theorem lookup_none_keysG : ∀ (G : List (List Char × List (List Char))) (c : List Char),
    c ∉ G.map Prod.fst → List.lookup c G = none := by
  intro G
  induction G with
  | nil => intro c _; rfl
  | cons e t ih =>
    intro c h
    obtain ⟨k, vs⟩ := e
    simp only [List.map_cons, List.mem_cons] at h
    push_neg at h
    obtain ⟨h1, h2⟩ := h
    have hb : (c == k) = false := beq_eq_false_iff_ne.mpr h1
    simp [List.lookup, hb, ih c h2]

theorem lookup_of_mem_nodupG : ∀ {G : List (List Char × List (List Char))}
    {c : List Char} {cs : List (List Char)},
    (G.map Prod.fst).Nodup → (c, cs) ∈ G → List.lookup c G = some cs := by
  intro G
  induction G with
  | nil => intro c cs _ h; simp at h
  | cons e t ih =>
    intro c cs hnd hmem
    obtain ⟨k, vs⟩ := e
    have hnd1 : (k :: t.map Prod.fst).Nodup := by rw [List.map_cons] at hnd; exact hnd
    have hnd2 := List.nodup_cons.mp hnd1
    rcases List.mem_cons.mp hmem with heq | hmem2
    · rw [Prod.mk.injEq] at heq
      obtain ⟨rfl, rfl⟩ := heq
      simp [List.lookup]
    · have hne : k ≠ c := by
        intro hh
        subst hh
        exact hnd2.1 (by simpa using List.mem_map_of_mem Prod.fst hmem2)
      have hb : (c == k) = false := beq_eq_false_iff_ne.mpr (fun hh => hne hh.symm)
      simp [List.lookup, hb, ih hnd2.2 hmem2]

theorem addFragment_lookup_ne : ∀ (G : List (List Char × List (List Char)))
    (cat content c : List Char), cat ≠ c →
    List.lookup c (addFragment G cat content) = List.lookup c G := by
  intro G
  induction G with
  | nil =>
    intro cat content c hne
    have hb : (c == cat) = false := beq_eq_false_iff_ne.mpr (fun hh => hne hh.symm)
    simp [addFragment, List.lookup, hb]
  | cons e t ih =>
    intro cat content c hne
    obtain ⟨k, vs⟩ := e
    by_cases hk : k = cat
    · subst hk
      have hb : (c == k) = false := beq_eq_false_iff_ne.mpr (fun hh => hne hh.symm)
      simp [addFragment, List.lookup, hb]
    · rw [show addFragment ((k, vs) :: t) cat content = (k, vs) :: addFragment t cat content
        from by simp [addFragment, hk]]
      by_cases hkc : k = c
      · subst hkc
        simp [List.lookup]
      · have hb : (c == k) = false := beq_eq_false_iff_ne.mpr (fun hh => hkc hh.symm)
        simp [List.lookup, hb, ih cat content c hne]

theorem foldl_addFragment_lookup_ne : ∀ (frags : List (List Char × List Char))
    (G : List (List Char × List (List Char))) (c : List Char),
    (∀ fc ∈ frags, fc.2 ≠ c) →
    List.lookup c (frags.foldl (fun g fc => addFragment g fc.2 fc.1) G)
      = List.lookup c G := by
  intro frags
  induction frags with
  | nil => intro G c _; rfl
  | cons fc rest ih =>
    intro G c h
    rw [List.foldl_cons, ih _ c (fun f2 h2 => h f2 (List.mem_cons_of_mem _ h2)),
      addFragment_lookup_ne G fc.2 fc.1 c (h fc (List.mem_cons_self _ _))]

theorem foldl_applyGroup_map : ∀ (G : List (List Char × List (List Char)))
    (l : List (List Char × List Char)), (G.map Prod.fst).Nodup →
    G.foldl applyGroup l = l.map (fun e => (e.1, groupIns G e.1 ++ e.2)) := by
  intro G
  induction G with
  | nil =>
    intro l _
    simp only [List.foldl_nil, groupIns, List.lookup]
    simp
  | cons g G2 ih =>
    intro l hnd
    obtain ⟨c, cs⟩ := g
    have hnd1 : (c :: G2.map Prod.fst).Nodup := by rw [List.map_cons] at hnd; exact hnd
    have hnd2 := List.nodup_cons.mp hnd1
    rw [List.foldl_cons, ih (applyGroup l (c, cs)) hnd2.2]
    unfold applyGroup updIns
    rw [List.map_map]
    apply List.map_congr_left
    intro e _
    by_cases he : e.1 = c
    · have hnone : List.lookup e.1 G2 = none := by
        rw [he]
        exact lookup_none_keysG G2 c hnd2.1
      have hcons : List.lookup e.1 ((c, cs) :: G2) = some cs := by
        rw [he]
        simp [List.lookup]
      simp [Function.comp, if_pos he, groupIns, hnone, hcons, List.append_assoc]
    · have hcons : List.lookup e.1 ((c, cs) :: G2) = List.lookup e.1 G2 := by
        have hb : (e.1 == c) = false := beq_eq_false_iff_ne.mpr he
        simp [List.lookup, hb]
      simp [Function.comp, if_neg he, groupIns, hcons]

/-- C6: for any main document in token/segment form, the merged output keeps
every insertion-point token and follows each token of category `c` exactly by
`groupIns` of the grouped map: a category whose group is empty (for example
`languages` forced empty by the no-lang flag, with no languages fragments)
contributes only the blank-line separator and no fragment content, and a
category with fragments contributes the separator plus its fragment bodies,
each trimmed, joined by a blank line — for every category and every token. -/
theorem C6_insertion_point_tokens : ∀ (src s0 : List Char)
    (l : List (List Char × List Char)) (frags : List (List Char × List Char))
    (no_lang : Bool) (mission : Option (List Char)),
    stripMarker src = s0 ++ renderTail l →
    '<' ∉ s0 → catsOk l → segsOk l →
    (∀ fc ∈ frags, '<' ∉ fc.1 ∧ goodCat fc.2) →
    (∀ m, mission = some m → '<' ∉ m) →
    merge_fragments src frags no_lang mission
      = s0 ++ renderTail (l.map (fun e =>
          (e.1, groupIns (buildGroups no_lang frags mission) e.1 ++ e.2))) ∧
    (no_lang = true → (∀ fc ∈ frags, fc.2 ≠ langCatL) →
      groupIns (buildGroups no_lang frags mission) langCatL = nlnl) ∧
    (∀ (c : List Char) (cs : List (List Char)),
      (c, cs) ∈ buildGroups no_lang frags mission →
      groupIns (buildGroups no_lang frags mission) c = nlnl ++ combinedContents cs) := by
  intro src s0 l frags no_lang mission hstrip hs0 hcats hsegs hf hm
  refine ⟨?_, ?_, ?_⟩
  · unfold merge_fragments mergeFragmentsOrd
    rw [hstrip]
    have hgood : ∀ g ∈ buildGroups no_lang frags mission,
        goodCat g.1 ∧ '<' ∉ nlnl ++ combinedContents g.2 := by
      intro g hg
      have h2 := buildGroups_good no_lang frags mission hf hm g hg
      exact ⟨h2.1, combined_no_lt h2.2⟩
    rw [processCategories_render _ s0 l hs0 hcats hsegs hgood,
      foldl_applyGroup_map _ l (buildGroups_keys_nodup no_lang frags mission)]
  · intro hnl hnofrag
    subst hnl
    have h1 : List.lookup langCatL
        (frags.foldl (fun g fc => addFragment g fc.2 fc.1)
          [(langCatL, ([] : List (List Char)))]) = some [] := by
      rw [foldl_addFragment_lookup_ne frags _ langCatL hnofrag]
      simp [List.lookup]
    have hlk : List.lookup langCatL (buildGroups true frags mission)
        = some ([] : List (List Char)) := by
      cases mission with
      | none => exact h1
      | some m =>
        rw [show buildGroups true frags (some m)
            = addFragment (frags.foldl (fun g fc => addFragment g fc.2 fc.1)
                [(langCatL, ([] : List (List Char)))]) missionCatL
                (missionHeader ++ trimChars m) from rfl]
        rw [addFragment_lookup_ne _ _ _ _ (by decide)]
        exact h1
    simp [groupIns, hlk, combinedContents, joinSep]
  · intro c cs hmem
    have hlk := lookup_of_mem_nodupG (buildGroups_keys_nodup no_lang frags mission) hmem
    simp [groupIns, hlk]

/-- Witness for C6: a two-token document (languages and principles), with the
languages group forced empty by no-lang and one principles fragment. -/
theorem C6_insertion_point_tokens_witness :
    merge_fragments ((("# H\n").data) ++ renderTail
        [(langCatL, ("\nA\n").data), ((("principles").data), ("\nB").data)])
        [((("P1").data), (("principles").data))] true none
      = (("# H\n").data) ++ renderTail
          ([(langCatL, ("\nA\n").data), ((("principles").data), ("\nB").data)].map (fun e =>
            (e.1, groupIns (buildGroups true [((("P1").data), (("principles").data))] none) e.1
              ++ e.2))) ∧
    groupIns (buildGroups true [((("P1").data), (("principles").data))] none) langCatL
      = nlnl ∧
    groupIns (buildGroups true [((("P1").data), (("principles").data))] none)
        (("principles").data)
      = nlnl ++ combinedContents [(("P1").data)] := by
  have h := C6_insertion_point_tokens
    ((("# H\n").data) ++ renderTail
      [(langCatL, ("\nA\n").data), ((("principles").data), ("\nB").data)])
    (("# H\n").data)
    [(langCatL, ("\nA\n").data), ((("principles").data), ("\nB").data)]
    [((("P1").data), (("principles").data))] true none
    (by decide) (by decide) (by decide) (by decide) (by decide)
    (fun m hm => Option.noConfusion hm)
  exact ⟨h.1, h.2.1 rfl (by decide),
    h.2.2 (("principles").data) [(("P1").data)] (by decide)⟩

set_option maxRecDepth 8192 in
/-- C10 counterexample: with a fragment body that itself contains another
category's insertion-point token, two enumeration orders of the same grouped
map (a permutation of each other) produce different merged outputs, so the
merge is not independent of the hash-map iteration order. -/
theorem C10_merge_order_counterexample :
    mergeFragmentsOrd
        (insertionPoint langCatL ++ [Char.ofNat 10] ++ insertionPoint (("principles").data))
        (buildGroups false
          [(insertionPoint (("principles").data), langCatL),
           ((("PRINC").data), (("principles").data))] none)
      ≠ mergeFragmentsOrd
        (insertionPoint langCatL ++ [Char.ofNat 10] ++ insertionPoint (("principles").data))
        ((buildGroups false
          [(insertionPoint (("principles").data), langCatL),
           ((("PRINC").data), (("principles").data))] none).reverse) ∧
    ((buildGroups false
        [(insertionPoint (("principles").data), langCatL),
         ((("PRINC").data), (("principles").data))] none).reverse).Perm
      (buildGroups false
        [(insertionPoint (("principles").data), langCatL),
         ((("PRINC").data), (("principles").data))] none) :=
  ⟨by decide, List.reverse_perm _⟩

/-- C10 amended: the fragment merge is order-independent — any two enumeration
orders of the grouped category map yield byte-identical output — provided the
stripped source decomposes into `<`-free text around insertion-point tokens of
well-formed category names and no fragment body or mission override contains
`<` (in particular, none contains an insertion-point token). -/
theorem C10_merge_deterministic_amended : ∀ (src : List Char)
    (frags : List (List Char × List Char)) (no_lang : Bool) (mission : Option (List Char))
    (order1 order2 : List (List Char × List (List Char)))
    (s0 : List Char) (l : List (List Char × List Char)),
    stripMarker src = s0 ++ renderTail l →
    '<' ∉ s0 → catsOk l → segsOk l →
    (∀ fc ∈ frags, '<' ∉ fc.1 ∧ goodCat fc.2) →
    (∀ m, mission = some m → '<' ∉ m) →
    order1.Perm (buildGroups no_lang frags mission) →
    order2.Perm (buildGroups no_lang frags mission) →
    mergeFragmentsOrd src order1 = mergeFragmentsOrd src order2 := by
  intro src frags no_lang mission order1 order2 s0 l hstrip hs0 hcats hsegs hf hm hp1 hp2
  have hgoodG := buildGroups_good no_lang frags mission hf hm
  have hgood1 : ∀ g ∈ order1, goodCat g.1 ∧ '<' ∉ nlnl ++ combinedContents g.2 := by
    intro g hg
    have h2 := hgoodG g (hp1.subset hg)
    exact ⟨h2.1, combined_no_lt h2.2⟩
  have hgood2 : ∀ g ∈ order2, goodCat g.1 ∧ '<' ∉ nlnl ++ combinedContents g.2 := by
    intro g hg
    have h2 := hgoodG g (hp2.subset hg)
    exact ⟨h2.1, combined_no_lt h2.2⟩
  have hnd1 : (order1.map Prod.fst).Nodup :=
    ((hp1.map Prod.fst).symm).nodup (buildGroups_keys_nodup no_lang frags mission)
  unfold mergeFragmentsOrd
  rw [hstrip]
  rw [processCategories_render order1 s0 l hs0 hcats hsegs hgood1,
    processCategories_render order2 s0 l hs0 hcats hsegs hgood2,
    foldl_applyGroup_perm (hp1.trans hp2.symm) hnd1 l]

/-- Witness for C10 amended at a concrete document and fragment list. -/
theorem C10_merge_deterministic_amended_witness :
    mergeFragmentsOrd (insertionPoint langCatL)
        (buildGroups false [((("B").data), langCatL)] none)
      = mergeFragmentsOrd (insertionPoint langCatL)
        (buildGroups false [((("B").data), langCatL)] none) :=
  C10_merge_deterministic_amended (insertionPoint langCatL) [((("B").data), langCatL)]
    false none _ _ [] [(langCatL, [])] (by decide) (by decide) (by decide) (by decide)
    (by decide) (fun m hm => Option.noConfusion hm) (List.Perm.refl _) (List.Perm.refl _)
